import Mathlib

/-
  Verification development for the "internetmoods" repository: a shallow
  embedding of the dashboard frontend (src/frontend/src/App.js and its two
  earlier revisions) together with a model of the backend aggregation and
  broadcast engine described in the design document.  The backend source
  (server.py) is not part of the repository snapshot, so its operations are
  modelled from the specification text; each such definition is marked
  "Modelled from the spec".  Frontend definitions are translated directly
  from the JavaScript source.
-/

/-- The seven enumerated upstream sources, exactly the keys of
`source_breakdown` in App.js (lines 728, 1008-1035). -/
inductive Source where
  | reddit
  | mastodon
  | google_trends
  | youtube
  | news
  | twitter
  | forums
deriving DecidableEq

/-- Modelled from the spec (§3 Post): one analyzed content item, restricted to
the fields the aggregator state transition reads: source, sentiment score and
optional country.  Scores are modelled as rationals. -/
structure Post where
  source : Source
  sentiment_score : ℚ
  country : Option String
deriving DecidableEq

/-- Modelled from the spec (§4.3): the fixed smoothing constant α = 0.05. -/
def alpha : ℚ := 1 / 20

/-- Modelled from the spec (§4.3): the bounded-memory smoothing rule
`current = current*(1-α) + post.score*α`. -/
def smooth (cur score : ℚ) : ℚ := cur * (1 - alpha) + score * alpha

/-- Modelled from the spec (§3 invariants): insertion into a bounded sequence,
evicting the oldest (front) entry once the configured capacity is reached. -/
def pushEvict (cap : ℕ) (xs : List α) (x : α) : List α :=
  if xs.length < cap then xs ++ [x] else xs.drop 1 ++ [x]

/-- Modelled from the spec: the configured capacity of the global
`happiness_trend`; the exact value is unspecified in available material, fixed
here at 100. -/
def trendCap : ℕ := 100

/-- Modelled from the spec: the configured capacity of one country's bounded
timeline; the exact value is unspecified in available material, fixed here
at 50. -/
def countryTimelineCap : ℕ := 50

/-- Modelled from the spec: the configured capacity of the recent-posts ring
buffer; the exact value is unspecified in available material, fixed here
at 50. -/
def recentCap : ℕ := 50

/-- Modelled from the spec (§3): one entry of `country_timelines`: a country
name, its accumulated post count, its running average and its bounded
timeline of happiness values. -/
structure CountryEntry where
  name : String
  total_posts : ℕ
  avg : ℚ
  timeline : List ℚ
deriving DecidableEq

/-- Modelled from the spec (§4.3): the aggregator's rolling state. -/
structure AggState where
  current_happiness : ℚ
  total_posts_analyzed : ℕ
  source_breakdown : Source → ℕ
  happiness_trend : List ℚ
  countries : List CountryEntry
  recent_posts : List Post

/-- Modelled from the spec (§3 lifecycle): state created at process start,
happiness at the neutral baseline 50, all counters zero, all buffers empty. -/
def initState : AggState :=
  { current_happiness := 50
    total_posts_analyzed := 0
    source_breakdown := fun _ => 0
    happiness_trend := []
    countries := []
    recent_posts := [] }

/-- Modelled from the spec (§4.3): update one country's record on ingest — find
the country's entry, bump its count, smooth its running average with the
post's score and append the new average to its bounded timeline; a country
seen for the first time starts from the neutral baseline 50 before
smoothing. -/
def updateCountry (cs : List CountryEntry) (c : String) (score : ℚ) :
    List CountryEntry :=
  match cs with
  | [] => [⟨c, 1, smooth 50 score, pushEvict countryTimelineCap [] (smooth 50 score)⟩]
  | e :: rest =>
    if e.name = c then
      ⟨e.name, e.total_posts + 1, smooth e.avg score,
        pushEvict countryTimelineCap e.timeline (smooth e.avg score)⟩ :: rest
    else
      e :: updateCountry rest c score

/-- Modelled from the spec (§4.3 ingest): increment the total and the post's
source count, push the post into the bounded recent buffer, smooth
`current_happiness` with the post's score, append the new value to the bounded
global trend, and update the post's country record when present. -/
def ingest (st : AggState) (p : Post) : AggState :=
  let h := smooth st.current_happiness p.sentiment_score
  { current_happiness := h
    total_posts_analyzed := st.total_posts_analyzed + 1
    source_breakdown := fun s =>
      if s = p.source then st.source_breakdown s + 1 else st.source_breakdown s
    happiness_trend := pushEvict trendCap st.happiness_trend h
    countries :=
      match p.country with
      | none => st.countries
      | some c => updateCountry st.countries c p.sentiment_score
    recent_posts := pushEvict recentCap st.recent_posts p }

/-- Sequential ingestion of a list of posts, left to right. -/
def ingestAll (st : AggState) : List Post → AggState
  | [] => st
  | p :: rest => ingestAll (ingest st p) rest

/-- Modelled from the spec (§3 HappinessSnapshot): the derived read-only view.
`country_timelines` exposes only countries whose accumulated post count has
reached the minimum-sample threshold of 5. -/
structure HappinessSnapshot where
  current_happiness : ℚ
  total_posts_analyzed : ℕ
  source_breakdown : Source → ℕ
  happiness_trend : List ℚ
  country_sentiment : List (String × ℚ)
  country_timelines : List CountryEntry
  recent_posts : List Post

/-- Modelled from the spec (§4.3 snapshot): a detached copy-out of current
state, with the minimum-sample guard applied to `country_timelines`. -/
def snapshot (st : AggState) : HappinessSnapshot :=
  { current_happiness := st.current_happiness
    total_posts_analyzed := st.total_posts_analyzed
    source_breakdown := st.source_breakdown
    happiness_trend := st.happiness_trend
    country_sentiment := st.countries.map (fun e => (e.name, e.avg))
    country_timelines := st.countries.filter (fun e => 5 ≤ e.total_posts)
    recent_posts := st.recent_posts }

/-- The sum of the per-source counts, `sum(source_breakdown.values())`. -/
def sumBreakdown (b : Source → ℕ) : ℕ :=
  b .reddit + b .mastodon + b .google_trends + b .youtube + b .news +
    b .twitter + b .forums

lemma sumBreakdown_ingest (st : AggState) (p : Post) :
    sumBreakdown (ingest st p).source_breakdown
      = sumBreakdown st.source_breakdown + 1 := by
  cases p with
  | mk src score country =>
    cases src <;> simp [ingest, sumBreakdown] <;> ring

lemma ingest_counts (st : AggState) (p : Post)
    (h : sumBreakdown st.source_breakdown = st.total_posts_analyzed) :
    sumBreakdown (ingest st p).source_breakdown
      = (ingest st p).total_posts_analyzed := by
  rw [sumBreakdown_ingest, h]; rfl

lemma ingestAll_counts (posts : List Post) :
    ∀ st : AggState,
      sumBreakdown st.source_breakdown = st.total_posts_analyzed →
      sumBreakdown (ingestAll st posts).source_breakdown
        = (ingestAll st posts).total_posts_analyzed := by
  induction posts with
  | nil => intro st h; exact h
  | cons p rest ih =>
    intro st h
    exact ih (ingest st p) (ingest_counts st p h)

/-- Claim C1: every snapshot reachable by a sequence of completed ingests
satisfies `sum(source_breakdown.values()) = total_posts_analyzed`; since all
ingests are serialized, every observable snapshot arises from some such
sequence. -/
theorem snapshot_breakdown_sums_to_total (posts : List Post) :
    sumBreakdown (snapshot (ingestAll initState posts)).source_breakdown
      = (snapshot (ingestAll initState posts)).total_posts_analyzed := by
  have h := ingestAll_counts posts initState (by simp [initState, sumBreakdown])
  simpa [snapshot] using h

lemma smooth_bounds (cur s : ℚ) (h0 : 0 ≤ cur) (h1 : cur ≤ 100)
    (h2 : 0 ≤ s) (h3 : s ≤ 100) :
    0 ≤ smooth cur s ∧ smooth cur s ≤ 100 := by
  unfold smooth alpha
  constructor <;> nlinarith

lemma ingestAll_happiness_bounds (posts : List Post) :
    ∀ st : AggState,
      0 ≤ st.current_happiness → st.current_happiness ≤ 100 →
      (∀ p ∈ posts, 0 ≤ p.sentiment_score ∧ p.sentiment_score ≤ 100) →
      0 ≤ (ingestAll st posts).current_happiness ∧
        (ingestAll st posts).current_happiness ≤ 100 := by
  induction posts with
  | nil => intro st h0 h1 _; exact ⟨h0, h1⟩
  | cons p rest ih =>
    intro st h0 h1 hp
    have hscore := hp p (List.mem_cons_self p rest)
    have hstep := smooth_bounds st.current_happiness p.sentiment_score h0 h1
      hscore.1 hscore.2
    exact ih (ingest st p) hstep.1 hstep.2
      (fun q hq => hp q (List.mem_cons_of_mem p hq))

/-- Claim C2: starting from the neutral baseline, for every sequence of
ingested posts with scores in [0,100], `current_happiness` lies in [0,100]
after every prefix of the sequence (i.e. at every observation point), and a
snapshot reports exactly that value. -/
theorem current_happiness_in_range (posts : List Post) (n : ℕ)
    (h : ∀ p ∈ posts, 0 ≤ p.sentiment_score ∧ p.sentiment_score ≤ 100) :
    (0 ≤ (ingestAll initState (posts.take n)).current_happiness ∧
      (ingestAll initState (posts.take n)).current_happiness ≤ 100) ∧
    (snapshot (ingestAll initState (posts.take n))).current_happiness
      = (ingestAll initState (posts.take n)).current_happiness := by
  refine ⟨?_, rfl⟩
  refine ingestAll_happiness_bounds (posts.take n) initState (by norm_num [initState])
    (by norm_num [initState]) ?_
  intro p hp
  exact h p (List.take_subset n posts hp)

/-- A post scored 90 from an arbitrary source, used by the §8 scenario. -/
def post90 : Post := ⟨Source.reddit, 90, none⟩

/-- A post scored 50 from an arbitrary source, used by the §8 scenario. -/
def post50 : Post := ⟨Source.reddit, 50, none⟩

/-- Claim C2 witness at a concrete input. -/
theorem current_happiness_in_range_witness :
    (∀ p ∈ [post90], 0 ≤ p.sentiment_score ∧ p.sentiment_score ≤ 100) ∧
    ((0 ≤ (ingestAll initState ([post90].take 1)).current_happiness ∧
      (ingestAll initState ([post90].take 1)).current_happiness ≤ 100) ∧
    (snapshot (ingestAll initState ([post90].take 1))).current_happiness
      = (ingestAll initState ([post90].take 1)).current_happiness) :=
  ⟨by decide, current_happiness_in_range [post90] 1 (by decide)⟩

/-- The §8 smoothing scenario state: from the fresh aggregator (happiness 50),
one post scored 90 followed by k posts scored 50. -/
def c5state (k : ℕ) : AggState :=
  ingestAll initState (post90 :: List.replicate k post50)

lemma ingestAll_append (l₁ l₂ : List Post) :
    ∀ st : AggState, ingestAll st (l₁ ++ l₂) = ingestAll (ingestAll st l₁) l₂ := by
  induction l₁ with
  | nil => intro st; rfl
  | cons p rest ih => intro st; exact ih (ingest st p)

lemma c5state_succ (k : ℕ) : c5state (k + 1) = ingest (c5state k) post50 := by
  unfold c5state
  rw [List.replicate_succ',
    show post90 :: (List.replicate k post50 ++ [post50])
        = (post90 :: List.replicate k post50) ++ [post50] by simp,
    ingestAll_append]
  rfl

lemma smooth50_step (h : ℚ) (hh : 50 < h) :
    50 < smooth h 50 ∧ smooth h 50 < h := by
  unfold smooth alpha
  constructor <;> nlinarith

lemma c5state_gt50 : ∀ k, 50 < (c5state k).current_happiness := by
  intro k
  induction k with
  | zero => norm_num [c5state, ingestAll, ingest, initState, smooth, alpha, post90]
  | succ k ih =>
    rw [c5state_succ]
    exact (smooth50_step _ ih).1

/-- Claim C5: with α = 0.05, ingesting one post scored 90 into the baseline
state yields `current_happiness = 52.0` exactly; the 19 subsequent posts
scored 50 yield a strictly decreasing sequence of values, each staying
strictly above 50. -/
theorem smoothing_scenario :
    (c5state 0).current_happiness = 52 ∧
    (∀ k, k < 19 →
      (c5state (k + 1)).current_happiness < (c5state k).current_happiness) ∧
    (∀ k, k ≤ 19 → 50 < (c5state k).current_happiness) := by
  refine ⟨?_, ?_, ?_⟩
  · norm_num [c5state, ingestAll, ingest, initState, smooth, alpha, post90]
  · intro k _
    rw [c5state_succ]
    exact (smooth50_step _ (c5state_gt50 k)).2
  · intro k _
    exact c5state_gt50 k

/-- Claim C5 witness at a concrete input. -/
theorem smoothing_scenario_witness :
    (0 < 19 ∧
      (c5state (0 + 1)).current_happiness < (c5state 0).current_happiness) ∧
    (1 ≤ 19 ∧ 50 < (c5state 1).current_happiness) :=
  ⟨⟨by decide, smoothing_scenario.2.1 0 (by decide)⟩,
    ⟨by decide, smoothing_scenario.2.2 1 (by decide)⟩⟩

/-- The list of country names recorded in the aggregator. -/
def countryNames (cs : List CountryEntry) : List String :=
  cs.map (fun e => e.name)

/-- A country's accumulated post count in the aggregator state (0 when the
country has never been seen). -/
def countryCount (st : AggState) (c : String) : ℕ :=
  match st.countries.find? (fun e => e.name == c) with
  | some e => e.total_posts
  | none => 0

lemma updateCountry_names_of_mem (cs : List CountryEntry) (c : String) (s : ℚ)
    (h : c ∈ countryNames cs) :
    countryNames (updateCountry cs c s) = countryNames cs := by
  induction cs with
  | nil => simp [countryNames] at h
  | cons e rest ih =>
    by_cases he : e.name = c
    · simp [updateCountry, he, countryNames]
    · have hc : c ∈ countryNames rest := by
        rcases (by simpa [countryNames] using h) with h1 | h1
        · exact absurd h1.symm he
        · simpa [countryNames] using h1
      have hrec := ih hc
      simp only [updateCountry, if_neg he]
      simp only [countryNames, List.map_cons] at hrec ⊢
      rw [hrec]

lemma updateCountry_names_of_not_mem (cs : List CountryEntry) (c : String)
    (s : ℚ) (h : c ∉ countryNames cs) :
    countryNames (updateCountry cs c s) = countryNames cs ++ [c] := by
  induction cs with
  | nil => simp [countryNames, updateCountry]
  | cons e rest ih =>
    have he : ¬ e.name = c := fun hc => h (by simp [countryNames, hc])
    have hrest : c ∉ countryNames rest := fun hc =>
      h (by simp [countryNames]; right; simpa [countryNames] using hc)
    have hrec := ih hrest
    simp only [updateCountry, if_neg he]
    simp only [countryNames, List.map_cons] at hrec ⊢
    simp [hrec]

lemma updateCountry_nodup (cs : List CountryEntry) (c : String) (s : ℚ)
    (h : (countryNames cs).Nodup) :
    (countryNames (updateCountry cs c s)).Nodup := by
  by_cases hc : c ∈ countryNames cs
  · rw [updateCountry_names_of_mem cs c s hc]; exact h
  · rw [updateCountry_names_of_not_mem cs c s hc]
    simp [List.nodup_append, h, hc]

lemma ingest_nodup (st : AggState) (p : Post)
    (h : (countryNames st.countries).Nodup) :
    (countryNames (ingest st p).countries).Nodup := by
  cases hp : p.country with
  | none => simpa [ingest, hp] using h
  | some c =>
    simpa [ingest, hp] using updateCountry_nodup st.countries c p.sentiment_score h

lemma ingestAll_nodup (posts : List Post) :
    ∀ st : AggState, (countryNames st.countries).Nodup →
      (countryNames (ingestAll st posts).countries).Nodup := by
  induction posts with
  | nil => intro st h; exact h
  | cons p rest ih => intro st h; exact ih (ingest st p) (ingest_nodup st p h)

lemma find_name_of_mem_nodup (cs : List CountryEntry) (e : CountryEntry)
    (hnd : (countryNames cs).Nodup) (he : e ∈ cs) :
    cs.find? (fun x => x.name == e.name) = some e := by
  induction cs with
  | nil => simp at he
  | cons f rest ih =>
    rcases List.mem_cons.mp he with rfl | hmem
    · simp [List.find?]
    · have hne : ¬ (f.name == e.name) = true := by
        intro hb
        have : f.name ∈ countryNames rest := by
          have : e.name ∈ countryNames rest := by
            simp [countryNames]
            exact ⟨e, hmem, rfl⟩
          simpa [beq_iff_eq.mp hb] using this
        have hnd' := (by simpa [countryNames] using hnd : (f.name :: countryNames rest).Nodup)
        exact (List.nodup_cons.mp hnd').1 this
      have hnd2 : (countryNames rest).Nodup := by
        have hnd' := (by simpa [countryNames] using hnd : (f.name :: countryNames rest).Nodup)
        exact (List.nodup_cons.mp hnd').2
      simp [List.find?, hne]
      exact ih hnd2 hmem

/-- A post tagged "Brazil" (score 50), used by the §8 minimum-sample
scenario. -/
def brazilPost : Post := ⟨Source.reddit, 50, some "Brazil"⟩

/-- Claim C3: in every reachable aggregator state, a country appears in the
exposed `country_timelines` iff its accumulated post count is at least 5;
concretely, after 4 posts tagged "Brazil" there is no "Brazil" entry, and
after a 5th it appears with `total_posts = 5` and a timeline of length 5. -/
theorem country_minimum_sample_threshold :
    (∀ (posts : List Post) (c : String),
      (∃ e ∈ (snapshot (ingestAll initState posts)).country_timelines, e.name = c)
        ↔ 5 ≤ countryCount (ingestAll initState posts) c) ∧
    (¬ ∃ e ∈ (snapshot (ingestAll initState (List.replicate 4 brazilPost))).country_timelines,
        e.name = "Brazil") ∧
    (∃ e ∈ (snapshot (ingestAll initState (List.replicate 5 brazilPost))).country_timelines,
        e.name = "Brazil" ∧ e.total_posts = 5 ∧ e.timeline.length = 5) := by
  refine ⟨?_, by decide, by decide⟩
  intro posts c
  have hnd : (countryNames (ingestAll initState posts).countries).Nodup :=
    ingestAll_nodup posts initState (by simp [initState, countryNames])
  constructor
  · rintro ⟨e, he, hname⟩
    have he' : e ∈ (ingestAll initState posts).countries ∧ 5 ≤ e.total_posts := by
      simpa [snapshot, List.mem_filter] using he
    subst hname
    have hfind := find_name_of_mem_nodup _ e hnd he'.1
    simpa [countryCount, hfind] using he'.2
  · intro h5
    rcases hf : (ingestAll initState posts).countries.find? (fun x => x.name == c) with _ | e
    · simp [countryCount, hf] at h5
    · have hmem := List.mem_of_find?_eq_some hf
      have hpred : e.name = c := by
        have := List.find?_some hf
        exact beq_iff_eq.mp this
      have htotal : 5 ≤ e.total_posts := by
        simpa [countryCount, hf] using h5
      exact ⟨e, by simp [snapshot, List.mem_filter, hmem, htotal], hpred⟩

lemma pushEvict_length (cap : ℕ) (xs : List α) (x : α)
    (hcap : 0 < cap) (hlen : xs.length ≤ cap) :
    (pushEvict cap xs x).length ≤ cap := by
  unfold pushEvict
  by_cases h : xs.length < cap <;> simp [h] <;> omega

lemma pushEvict_full (cap : ℕ) (xs : List α) (x : α) (h : xs.length = cap) :
    pushEvict cap xs x = xs.drop 1 ++ [x] := by
  simp [pushEvict, h]

/-- All bounded sequences of the aggregator state are within their configured
capacities. -/
def boundedState (st : AggState) : Prop :=
  st.happiness_trend.length ≤ trendCap ∧
  st.recent_posts.length ≤ recentCap ∧
  ∀ e ∈ st.countries, e.timeline.length ≤ countryTimelineCap

lemma updateCountry_timeline_bound (cs : List CountryEntry) (c : String) (s : ℚ)
    (h : ∀ e ∈ cs, e.timeline.length ≤ countryTimelineCap) :
    ∀ e ∈ updateCountry cs c s, e.timeline.length ≤ countryTimelineCap := by
  induction cs with
  | nil =>
    intro e he
    simp [updateCountry] at he
    subst he
    exact pushEvict_length countryTimelineCap [] (smooth 50 s) (by decide) (by simp)
  | cons f rest ih =>
    intro e he
    by_cases hf : f.name = c
    · simp [updateCountry, hf] at he
      rcases he with rfl | hmem
      · exact pushEvict_length _ _ _ (by decide)
          (h f (List.mem_cons_self f rest))
      · exact h e (List.mem_cons_of_mem f hmem)
    · simp [updateCountry, hf] at he
      rcases he with rfl | hmem
      · exact h e (List.mem_cons_self e rest)
      · exact ih (fun q hq => h q (List.mem_cons_of_mem f hq)) e hmem

lemma ingest_bounded (st : AggState) (p : Post) (h : boundedState st) :
    boundedState (ingest st p) := by
  obtain ⟨h1, h2, h3⟩ := h
  refine ⟨pushEvict_length _ _ _ (by decide) h1,
    pushEvict_length _ _ _ (by decide) h2, ?_⟩
  cases hp : p.country with
  | none => simpa [ingest, hp] using h3
  | some c =>
    simpa [ingest, hp] using updateCountry_timeline_bound st.countries c _ h3

lemma ingestAll_bounded (posts : List Post) :
    ∀ st : AggState, boundedState st → boundedState (ingestAll st posts) := by
  induction posts with
  | nil => intro st h; exact h
  | cons p rest ih => intro st h; exact ih (ingest st p) (ingest_bounded st p h)

/-- JS `xs.slice(-n)`: the last `min n (length xs)` elements of the array. -/
def sliceLast (n : ℕ) (xs : List α) : List α := xs.drop (xs.length - n)

/-- Embedded from src/unnamed/part_001 lines 313 and 325: the dashboard's
trend update `prev.happiness_trend.slice(-9).concat([current_happiness])`
(configured capacity 10). -/
def trendUpdate (prev : List ℚ) (v : ℚ) : List ℚ := sliceLast 9 prev ++ [v]

/-- Embedded from src/unnamed/part_000 line 737: the later revision's trend
update `[...prev.happiness_trend.slice(-30), current_happiness]` (configured
capacity 31). -/
def trendUpdate30 (prev : List ℚ) (v : ℚ) : List ℚ := sliceLast 30 prev ++ [v]

/-- Embedded from src/unnamed/part_001 line 317: the dashboard's most-recent-
first posts update `[message.data, ...prev.slice(0, 19)]` (configured
capacity 20). -/
def recentUpdate (x : α) (prev : List α) : List α := x :: prev.take 19

/-- Claim C4: every bounded sequence stays within its configured capacity and,
once full, an insertion evicts exactly the oldest entry, keeping the remaining
entries in order: for the aggregator's push operation and all its buffers
(trend, per-country timelines, recent posts) and for the dashboard's own
bounded updates (trend capacity 10 resp. 31, recent posts capacity 20,
oldest = last in its most-recent-first order). -/
theorem bounded_sequences_fifo :
    (∀ (cap : ℕ) (xs : List ℚ) (x : ℚ), 0 < cap → xs.length ≤ cap →
      (pushEvict cap xs x).length ≤ cap ∧
      (xs.length = cap → pushEvict cap xs x = xs.drop 1 ++ [x])) ∧
    (∀ posts : List Post, boundedState (ingestAll initState posts)) ∧
    (∀ (prev : List ℚ) (v : ℚ), prev.length ≤ 10 →
      (trendUpdate prev v).length ≤ 10 ∧
      (prev.length = 10 → trendUpdate prev v = prev.drop 1 ++ [v])) ∧
    (∀ (prev : List ℚ) (v : ℚ), prev.length ≤ 31 →
      (trendUpdate30 prev v).length ≤ 31 ∧
      (prev.length = 31 → trendUpdate30 prev v = prev.drop 1 ++ [v])) ∧
    (∀ (x : Post) (prev : List Post), prev.length ≤ 20 →
      (recentUpdate x prev).length ≤ 20 ∧
      (prev.length = 20 → recentUpdate x prev = x :: prev.dropLast)) := by
  refine ⟨?_, ?_, ?_, ?_, ?_⟩
  · intro cap xs x hcap hlen
    exact ⟨pushEvict_length cap xs x hcap hlen, pushEvict_full cap xs x⟩
  · intro posts
    exact ingestAll_bounded posts initState (by simp [boundedState, initState])
  · intro prev v _
    constructor
    · simp [trendUpdate, sliceLast]; omega
    · intro h10; simp [trendUpdate, sliceLast, h10]
  · intro prev v _
    constructor
    · simp [trendUpdate30, sliceLast]; omega
    · intro h31; simp [trendUpdate30, sliceLast, h31]
  · intro x prev _
    constructor
    · simp only [recentUpdate, List.length_cons, List.length_take]; omega
    · intro h20
      simp [recentUpdate, List.dropLast_eq_take, h20]

/-- Claim C4 witness at concrete inputs. -/
theorem bounded_sequences_fifo_witness :
    ((0 < 2 ∧ ([(1 : ℚ), 2]).length ≤ 2) ∧
      (pushEvict 2 [(1 : ℚ), 2] 3).length ≤ 2 ∧
      pushEvict 2 [(1 : ℚ), 2] 3 = [2, 3]) ∧
    (([(1 : ℚ), 2]).length ≤ 10 ∧ (trendUpdate [1, 2] 3).length ≤ 10) ∧
    (([(1 : ℚ)]).length ≤ 31 ∧ (trendUpdate30 [1] 2).length ≤ 31) ∧
    (([] : List Post).length ≤ 20 ∧ (recentUpdate post50 []).length ≤ 20) := by
  have h1 := bounded_sequences_fifo.1 2 [(1 : ℚ), 2] 3 (by decide) (by decide)
  have h3 := bounded_sequences_fifo.2.2.1 [(1 : ℚ), 2] 3 (by decide)
  have h4 := bounded_sequences_fifo.2.2.2.1 [(1 : ℚ)] 2 (by decide)
  have h5 := bounded_sequences_fifo.2.2.2.2 post50 [] (by decide)
  exact ⟨⟨⟨by decide, by decide⟩, h1.1, by simpa using h1.2 (by decide)⟩,
    ⟨by decide, h3.1⟩, ⟨by decide, h4.1⟩, ⟨by decide, h5.1⟩⟩

/-- Modelled from the spec (§4.5): tag of a real-time channel message. -/
inductive MsgTag where
  | initialStatus
  | happinessUpdate
deriving DecidableEq

/-- Modelled from the spec (§4.5): the events driving the subscription
manager: a client registering, a client unregistering, and one periodic
broadcast tick. -/
inductive SubEvent where
  | register (s : ℕ)
  | unregister (s : ℕ)
  | tick
deriving DecidableEq

/-- Modelled from the spec (§4.5): one subscription-manager step: `register`
immediately sends that subscriber one `initial_status` message and records it;
`unregister` removes it; a broadcast tick sends one `happiness_update` to
every currently registered subscriber. -/
def subStep (subs : List ℕ) (e : SubEvent) : List ℕ × List (ℕ × MsgTag) :=
  match e with
  | .register s =>
    ((if s ∈ subs then subs else subs ++ [s]), [(s, MsgTag.initialStatus)])
  | .unregister s => (subs.erase s, [])
  | .tick => (subs, subs.map (fun t => (t, MsgTag.happinessUpdate)))

/-- The delivery trace (subscriber, message tag) of an event sequence, run
from a given set of registered subscribers. -/
def runFrom (subs : List ℕ) : List SubEvent → List (ℕ × MsgTag)
  | [] => []
  | e :: rest => (subStep subs e).2 ++ runFrom (subStep subs e).1 rest

/-- The messages one subscriber receives, in delivery order, starting from a
given set of registered subscribers. -/
def msgsFrom (subs : List ℕ) (s : ℕ) (events : List SubEvent) : List MsgTag :=
  ((runFrom subs events).filter (fun m => m.1 == s)).map (fun m => m.2)

/-- The messages one subscriber receives, in delivery order, from process
start. -/
def msgsTo (s : ℕ) (events : List SubEvent) : List MsgTag :=
  msgsFrom [] s events

lemma msgsFrom_cons (subs : List ℕ) (s : ℕ) (e : SubEvent)
    (rest : List SubEvent) :
    msgsFrom subs s (e :: rest)
      = ((subStep subs e).2.filter (fun m => m.1 == s)).map (fun m => m.2)
        ++ msgsFrom (subStep subs e).1 s rest := by
  simp [msgsFrom, runFrom]

lemma msgs_no_initial (s : ℕ) (events : List SubEvent) :
    ∀ subs, events.count (SubEvent.register s) = 0 →
      MsgTag.initialStatus ∉ msgsFrom subs s events := by
  induction events with
  | nil => intro subs _; simp [msgsFrom, runFrom]
  | cons e rest ih =>
    intro subs h
    have hcount : rest.count (SubEvent.register s) = 0 ∧ e ≠ SubEvent.register s := by
      rw [List.count_cons] at h
      by_cases he : e = SubEvent.register s
      · subst he; simp at h
      · refine ⟨?_, he⟩
        simpa [he] using h
    rw [msgsFrom_cons]
    intro hmem
    rcases List.mem_append.mp hmem with hin | hin
    · cases e with
      | register t =>
        have hts : ¬ t = s := fun hts => hcount.2 (by rw [hts])
        simp [subStep, hts] at hin
      | unregister t => simp [subStep] at hin
      | tick =>
        rcases List.mem_map.mp hin with ⟨m, hm, hsnd⟩
        rcases List.mem_map.mp (List.mem_of_mem_filter hm) with ⟨t, _, rfl⟩
        simp at hsnd
    · exact ih _ hcount.1 hin

lemma tick_out_empty (subs : List ℕ) (s : ℕ) (h : s ∉ subs) :
    (subs.map (fun t => (t, MsgTag.happinessUpdate))).filter
        (fun m => m.1 == s) = [] := by
  induction subs with
  | nil => rfl
  | cons t rest ih =>
    have hts : ¬ t = s := fun hts => h (by rw [hts]; exact List.mem_cons_self s rest)
    have hrest : s ∉ rest := fun hs => h (List.mem_cons_of_mem t hs)
    simpa [hts] using ih hrest

lemma register_initial_first (s : ℕ) (events : List SubEvent) :
    ∀ subs, s ∉ subs → events.count (SubEvent.register s) = 1 →
      ∃ rest, msgsFrom subs s events = MsgTag.initialStatus :: rest ∧
        MsgTag.initialStatus ∉ rest := by
  induction events with
  | nil => intro subs _ h; simp at h
  | cons e rest ih =>
    intro subs hs h
    rw [List.count_cons] at h
    by_cases he : e = SubEvent.register s
    · subst he
      have hcount : rest.count (SubEvent.register s) = 0 := by simpa using h
      refine ⟨msgsFrom (subStep subs (SubEvent.register s)).1 s rest, ?_, ?_⟩
      · rw [msgsFrom_cons]; simp [subStep]
      · exact msgs_no_initial s rest _ hcount
    · have hcount : rest.count (SubEvent.register s) = 1 := by simpa [he] using h
      rw [msgsFrom_cons]
      cases e with
      | register t =>
        have hts : ¬ t = s := fun hts => he (by rw [hts])
        have hs' : s ∉ (subStep subs (SubEvent.register t)).1 := by
          simp only [subStep]
          by_cases htm : t ∈ subs <;> simp [htm, hs]
          intro hst
          exact hts hst.symm
        have := ih (subStep subs (SubEvent.register t)).1 hs' hcount
        simpa [subStep, hts] using this
      | unregister t =>
        have hs' : s ∉ (subStep subs (SubEvent.unregister t)).1 :=
          fun hmem => hs (List.mem_of_mem_erase hmem)
        have := ih (subStep subs (SubEvent.unregister t)).1 hs' hcount
        simpa [subStep] using this
      | tick =>
        have := ih subs hs hcount
        simpa [subStep, tick_out_empty subs s hs] using this

/-- Claim C6: a subscriber registered exactly once receives exactly one
`initial_status` message, and it is delivered strictly before the first
periodic `happiness_update` that subscriber receives (it is the subscriber's
first message). -/
theorem register_delivers_initial_status_first (events : List SubEvent)
    (s : ℕ) (h : events.count (SubEvent.register s) = 1) :
    ∃ rest, msgsTo s events = MsgTag.initialStatus :: rest ∧
      MsgTag.initialStatus ∉ rest := by
  exact register_initial_first s events [] (by simp) h

/-- Claim C6 witness at a concrete input. -/
theorem register_delivers_initial_status_first_witness :
    ([SubEvent.register 0, SubEvent.tick].count (SubEvent.register 0) = 1) ∧
    (∃ rest, msgsTo 0 [SubEvent.register 0, SubEvent.tick]
        = MsgTag.initialStatus :: rest ∧ MsgTag.initialStatus ∉ rest) :=
  ⟨by decide,
    register_delivers_initial_status_first [SubEvent.register 0, SubEvent.tick]
      0 (by decide)⟩

/-- JS property access `data.key` on a JSON object with numeric fields: the
value when the key is present, `undefined` (here `none`) when absent. -/
def jsGet (data : List (String × ℚ)) (k : String) : Option ℚ :=
  (data.find? (fun kv => kv.1 == k)).map (fun kv => kv.2)

/-- A real-time channel message: its `type` tag and the numeric fields of its
`data` payload. -/
structure WireMsg where
  type : String
  data : List (String × ℚ)

/-- The scalar core of the dashboard's mirror of the happiness state; `none`
models a JS `undefined` field. -/
structure ClientNums where
  current_happiness : Option ℚ
  total_posts_analyzed : Option ℚ
deriving DecidableEq

/-- Embedded from App.js lines 770-789 (websocket.onmessage), restricted to
the scalar fields: on a `happiness_update` message the handler stores
`message.data.current_happiness` and `message.data.total_analyzed` into its
state; any other message type leaves the state unchanged. -/
def onMessage (prev : ClientNums) (msg : WireMsg) : ClientNums :=
  if msg.type = "happiness_update" then
    { current_happiness := jsGet msg.data "current_happiness"
      total_posts_analyzed := jsGet msg.data "total_analyzed" }
  else prev

/-- Embedded from src/unnamed/part_001 lines 303-340 (websocket.onmessage),
restricted to the scalar fields: the earlier dashboard revision handles the
tags `new_post`, `happiness_update` and `initial_status`, in each case
reading `message.data.current_happiness` and `message.data.total_analyzed`. -/
def onMessage001 (prev : ClientNums) (msg : WireMsg) : ClientNums :=
  if msg.type = "new_post" ∨ msg.type = "happiness_update" ∨
      msg.type = "initial_status" then
    { current_happiness := jsGet msg.data "current_happiness"
      total_posts_analyzed := jsGet msg.data "total_analyzed" }
  else prev

/-- Claim C7 counterexample: the dashboard's message handler does not read a
payload field named `total_posts_analyzed`; at this concrete payload the
field named `total_posts_analyzed` holds 7 yet the handler stores 3, the
value of the `total_analyzed` field. -/
theorem onMessage_field_name_counterexample :
    ¬ (∀ (prev : ClientNums) (payload : List (String × ℚ)),
        (onMessage prev ⟨"happiness_update", payload⟩).total_posts_analyzed
          = jsGet payload "total_posts_analyzed") := by
  intro h
  exact absurd
    (h ⟨none, none⟩ [("total_posts_analyzed", 7), ("total_analyzed", 3)])
    (by decide)

/-- Claim C7 as amended: the handled real-time messages form a tagged union on
the `type` field, but the total count travels in a payload field named
`total_analyzed`, not `total_posts_analyzed`: on a `happiness_update` the
App.js handler reads `message.data.total_analyzed` (and
`message.data.current_happiness`) and any other tag leaves its state
unchanged, while the earlier revision reads the same `total_analyzed` field
for both the `happiness_update` and the `initial_status` tags. -/
theorem onMessage_reads_payload_fields (prev : ClientNums)
    (payload : List (String × ℚ)) (t : String) :
    ((onMessage prev ⟨"happiness_update", payload⟩).total_posts_analyzed
        = jsGet payload "total_analyzed" ∧
      (onMessage prev ⟨"happiness_update", payload⟩).current_happiness
        = jsGet payload "current_happiness") ∧
    (t ≠ "happiness_update" → onMessage prev ⟨t, payload⟩ = prev) ∧
    (t = "happiness_update" ∨ t = "initial_status" →
      (onMessage001 prev ⟨t, payload⟩).total_posts_analyzed
        = jsGet payload "total_analyzed") := by
  refine ⟨⟨by simp [onMessage], by simp [onMessage]⟩,
    fun ht => by simp [onMessage, ht], fun ht => ?_⟩
  rcases ht with rfl | rfl <;> simp [onMessage001]

/-- Claim C7 witness at concrete inputs. -/
theorem onMessage_reads_payload_fields_witness :
    ("initial_status" ≠ "happiness_update" ∧
      onMessage ⟨some 50, some 0⟩ ⟨"initial_status", []⟩ = ⟨some 50, some 0⟩) ∧
    (("initial_status" = "happiness_update" ∨ "initial_status" = "initial_status") ∧
      (onMessage001 ⟨some 50, some 0⟩ ⟨"initial_status", [("total_analyzed", 9)]⟩).total_posts_analyzed
        = jsGet [("total_analyzed", 9)] "total_analyzed") :=
  ⟨⟨by decide,
    (onMessage_reads_payload_fields ⟨some 50, some 0⟩ [] "initial_status").2.1
      (by decide)⟩,
  ⟨Or.inr rfl,
    (onMessage_reads_payload_fields ⟨some 50, some 0⟩ [("total_analyzed", 9)]
      "initial_status").2.2 (Or.inr rfl)⟩⟩

/-- Embedded from App.js lines 725-733: the dashboard's full mirror of the
happiness state. -/
structure ClientState where
  current_happiness : ℚ
  total_posts_analyzed : ℕ
  source_breakdown : Source → ℕ
  happiness_trend : List ℚ
  country_sentiment : List (String × ℚ)
  country_timelines : List CountryEntry
  uptime : String

/-- Embedded from App.js line 728: the initial `source_breakdown` object,
every one of the seven source counts zero. -/
def appInitialBreakdown : Source → ℕ
  | .reddit => 0
  | .mastodon => 0
  | .google_trends => 0
  | .youtube => 0
  | .news => 0
  | .twitter => 0
  | .forums => 0

/-- Embedded from App.js lines 725-733: the `useState` initializer of the
dashboard's mirror. -/
def appInitialState : ClientState :=
  { current_happiness := 50
    total_posts_analyzed := 0
    source_breakdown := appInitialBreakdown
    happiness_trend := []
    country_sentiment := []
    country_timelines := []
    uptime := "00:00" }

/-- Embedded from src/unnamed/part_001 lines 271-276: the earlier dashboard
revision's `useState` initializer (its breakdown object lists only the two
sources that revision knew). -/
structure EarlyClientState where
  current_happiness : ℚ
  total_posts_analyzed : ℕ
  source_breakdown : List (String × ℕ)
  happiness_trend : List ℚ

/-- Embedded from src/unnamed/part_001 lines 271-276. -/
def part001InitialState : EarlyClientState :=
  { current_happiness := 50
    total_posts_analyzed := 0
    source_breakdown := [("reddit", 0), ("mastodon", 0)]
    happiness_trend := [] }

/-- Claim C8: at process start the aggregate state has `current_happiness` at
the neutral baseline 50, `total_posts_analyzed` 0 and every per-source count
0, and the dashboard client (both revisions) initializes its mirror to the
same values. -/
theorem initial_state_neutral_baseline :
    (initState.current_happiness = 50 ∧ initState.total_posts_analyzed = 0 ∧
      ∀ s, initState.source_breakdown s = 0) ∧
    (appInitialState.current_happiness = 50 ∧
      appInitialState.total_posts_analyzed = 0 ∧
      ∀ s, appInitialState.source_breakdown s = 0) ∧
    (appInitialState.current_happiness = initState.current_happiness ∧
      appInitialState.total_posts_analyzed = initState.total_posts_analyzed ∧
      ∀ s, appInitialState.source_breakdown s = initState.source_breakdown s) ∧
    (part001InitialState.current_happiness = 50 ∧
      part001InitialState.total_posts_analyzed = 0 ∧
      ∀ kv ∈ part001InitialState.source_breakdown, kv.2 = 0) := by
  refine ⟨⟨rfl, rfl, fun s => rfl⟩,
    ⟨rfl, rfl, fun s => by cases s <;> rfl⟩,
    ⟨rfl, rfl, fun s => by cases s <;> rfl⟩,
    ⟨rfl, rfl, ?_⟩⟩
  decide

/-- Claim C8 witness at a concrete input. -/
theorem initial_state_neutral_baseline_witness :
    ("reddit", 0) ∈ part001InitialState.source_breakdown ∧
      (("reddit", 0) : String × ℕ).2 = 0 :=
  ⟨by decide,
    initial_state_neutral_baseline.2.2.2.2.2 ("reddit", 0) (by decide)⟩

/-- The JS truthiness fallback `x || y` for an optional numeric lookup: a
missing key (`undefined`) and the number 0 are both falsy, so either yields
`y`. -/
def jsOrNum (x : Option ℚ) (y : ℚ) : ℚ :=
  match x with
  | none => y
  | some v => if v = 0 then y else v

/-- Embedded from App.js line 225 (WireframeGlobe): the sentiment used for one
country dot, `countrySentiment[country] || happiness`; src/unnamed/part_002
line 122 is identical. -/
def dotSentiment (countrySentiment : List (String × ℚ)) (country : String)
    (happiness : ℚ) : ℚ :=
  jsOrNum (jsGet countrySentiment country) happiness

/-- Claim C9: a country dot's sentiment equals the country's
`country_sentiment` entry when it is present and nonzero, and equals the
global `current_happiness` otherwise — in particular a recorded sentiment of
exactly 0 is displayed as the global happiness value. -/
theorem country_dot_sentiment_fallback (cs : List (String × ℚ)) (c : String)
    (h v : ℚ) :
    (jsGet cs c = some v → v ≠ 0 → dotSentiment cs c h = v) ∧
    (jsGet cs c = none → dotSentiment cs c h = h) ∧
    (jsGet cs c = some 0 → dotSentiment cs c h = h) := by
  refine ⟨fun hf hv => ?_, fun hf => ?_, fun hf => ?_⟩
  · simp [dotSentiment, hf, jsOrNum, hv]
  · simp [dotSentiment, hf, jsOrNum]
  · simp [dotSentiment, hf, jsOrNum]

/-- Claim C9 witness at concrete inputs. -/
theorem country_dot_sentiment_fallback_witness :
    (jsGet [("Brazil", 0), ("France", 60)] "France" = some 60 ∧ (60 : ℚ) ≠ 0 ∧
      dotSentiment [("Brazil", 0), ("France", 60)] "France" 42 = 60) ∧
    (jsGet [("Brazil", (0 : ℚ)), ("France", 60)] "Brazil" = some 0 ∧
      dotSentiment [("Brazil", 0), ("France", 60)] "Brazil" 42 = 42) :=
  ⟨⟨by decide, by decide,
    (country_dot_sentiment_fallback [("Brazil", 0), ("France", 60)] "France"
      42 60).1 (by decide) (by decide)⟩,
  ⟨by decide,
    (country_dot_sentiment_fallback [("Brazil", 0), ("France", 60)] "Brazil"
      42 0).2.2 (by decide)⟩⟩

/-- Embedded from App.js lines 887-892: one iteration of the
`getHappiestCountry` loop — on a sentiment strictly above the highest seen so
far, record the lowercased country name and that sentiment. -/
def happiestStep (acc : String × ℚ) (e : String × ℚ) : String × ℚ :=
  if acc.2 < e.2 then (e.1.toLower, e.2) else acc

/-- Embedded from App.js lines 879-895: `getHappiestCountry` returns 'n/a' on
an empty mapping, else iterates from ('n/a', 0) keeping the strictly highest
sentiment. -/
def getHappiestCountry (countrySentiment : List (String × ℚ)) : String :=
  if countrySentiment.length = 0 then "n/a"
  else (countrySentiment.foldl happiestStep ("n/a", 0)).1

/-- Embedded from App.js lines 905-910: one iteration of the
`getSaddestCountry` loop — on a sentiment strictly below the lowest seen so
far, record the lowercased country name and that sentiment. -/
def saddestStep (acc : String × ℚ) (e : String × ℚ) : String × ℚ :=
  if e.2 < acc.2 then (e.1.toLower, e.2) else acc

/-- Embedded from App.js lines 897-913: `getSaddestCountry` returns 'n/a' on
an empty mapping, else iterates from ('n/a', 100) keeping the strictly lowest
sentiment. -/
def getSaddestCountry (countrySentiment : List (String × ℚ)) : String :=
  if countrySentiment.length = 0 then "n/a"
  else (countrySentiment.foldl saddestStep ("n/a", 100)).1

lemma happiestFold (l : List (String × ℚ)) :
    ∀ acc : String × ℚ,
      (l.foldl happiestStep acc = acc ∨
        ∃ p ∈ l, l.foldl happiestStep acc = (p.1.toLower, p.2)) ∧
      acc.2 ≤ (l.foldl happiestStep acc).2 ∧
      ∀ q ∈ l, q.2 ≤ (l.foldl happiestStep acc).2 := by
  induction l with
  | nil => intro acc; exact ⟨Or.inl rfl, le_refl _, by simp⟩
  | cons e rest ih =>
    intro acc
    have step : List.foldl happiestStep acc (e :: rest)
        = List.foldl happiestStep (happiestStep acc e) rest := rfl
    obtain ⟨hA, hB, hC⟩ := ih (happiestStep acc e)
    have hacc : acc.2 ≤ (happiestStep acc e).2 := by
      unfold happiestStep
      by_cases h : acc.2 < e.2 <;> simp [h]
      exact le_of_lt h
    have he2 : e.2 ≤ (happiestStep acc e).2 := by
      unfold happiestStep
      by_cases h : acc.2 < e.2 <;> simp [h]
      exact le_of_not_lt h
    refine ⟨?_, ?_, ?_⟩
    · rcases hA with hA | ⟨p, hp, hpe⟩
      · by_cases h : acc.2 < e.2
        · exact Or.inr ⟨e, List.mem_cons_self e rest,
            by rw [step, hA]; simp [happiestStep, h]⟩
        · exact Or.inl (by rw [step, hA]; simp [happiestStep, h])
      · exact Or.inr ⟨p, List.mem_cons_of_mem e hp, by rw [step]; exact hpe⟩
    · rw [step]; exact le_trans hacc hB
    · rw [step]
      intro q hq
      rcases List.mem_cons.mp hq with rfl | hq'
      · exact le_trans he2 hB
      · exact hC q hq'

lemma saddestFold (l : List (String × ℚ)) :
    ∀ acc : String × ℚ,
      (l.foldl saddestStep acc = acc ∨
        ∃ p ∈ l, l.foldl saddestStep acc = (p.1.toLower, p.2)) ∧
      (l.foldl saddestStep acc).2 ≤ acc.2 ∧
      ∀ q ∈ l, (l.foldl saddestStep acc).2 ≤ q.2 := by
  induction l with
  | nil => intro acc; exact ⟨Or.inl rfl, le_refl _, by simp⟩
  | cons e rest ih =>
    intro acc
    have step : List.foldl saddestStep acc (e :: rest)
        = List.foldl saddestStep (saddestStep acc e) rest := rfl
    obtain ⟨hA, hB, hC⟩ := ih (saddestStep acc e)
    have hacc : (saddestStep acc e).2 ≤ acc.2 := by
      unfold saddestStep
      by_cases h : e.2 < acc.2 <;> simp [h]
      exact le_of_lt h
    have he2 : (saddestStep acc e).2 ≤ e.2 := by
      unfold saddestStep
      by_cases h : e.2 < acc.2 <;> simp [h]
      exact le_of_not_lt h
    refine ⟨?_, ?_, ?_⟩
    · rcases hA with hA | ⟨p, hp, hpe⟩
      · by_cases h : e.2 < acc.2
        · exact Or.inr ⟨e, List.mem_cons_self e rest,
            by rw [step, hA]; simp [saddestStep, h]⟩
        · exact Or.inl (by rw [step, hA]; simp [saddestStep, h])
      · exact Or.inr ⟨p, List.mem_cons_of_mem e hp, by rw [step]; exact hpe⟩
    · rw [step]; exact le_trans hB hacc
    · rw [step]
      intro q hq
      rcases List.mem_cons.mp hq with rfl | hq'
      · exact le_trans hB he2
      · exact hC q hq'

/-- Claim C10: `getHappiestCountry` returns 'n/a' on the empty mapping and,
whenever some value is strictly positive, the lowercased name of a country
attaining the maximum; `getSaddestCountry` returns 'n/a' on the empty mapping
and, whenever some value is strictly below 100, the lowercased name of a
country attaining the minimum. -/
theorem extreme_country_helpers :
    getHappiestCountry [] = "n/a" ∧
    (∀ l : List (String × ℚ), (∃ p ∈ l, 0 < p.2) →
      ∃ p ∈ l, getHappiestCountry l = p.1.toLower ∧ ∀ q ∈ l, q.2 ≤ p.2) ∧
    getSaddestCountry [] = "n/a" ∧
    (∀ l : List (String × ℚ), (∃ p ∈ l, p.2 < 100) →
      ∃ p ∈ l, getSaddestCountry l = p.1.toLower ∧ ∀ q ∈ l, p.2 ≤ q.2) := by
  refine ⟨rfl, ?_, rfl, ?_⟩
  · rintro l ⟨p0, hp0, hp0pos⟩
    have hne : ¬ l.length = 0 := by
      cases l with
      | nil => simp at hp0
      | cons a t => simp
    obtain ⟨hA, _, hC⟩ := happiestFold l ("n/a", 0)
    have hr2 : 0 < (l.foldl happiestStep ("n/a", 0)).2 :=
      lt_of_lt_of_le hp0pos (hC p0 hp0)
    rcases hA with hA | ⟨p, hp, hpe⟩
    · rw [hA] at hr2
      exact absurd hr2 (by norm_num)
    · refine ⟨p, hp, ?_, ?_⟩
      · unfold getHappiestCountry
        rw [if_neg hne, hpe]
      · intro q hq
        have hq2 := hC q hq
        rw [hpe] at hq2
        exact hq2
  · rintro l ⟨p0, hp0, hp0lt⟩
    have hne : ¬ l.length = 0 := by
      cases l with
      | nil => simp at hp0
      | cons a t => simp
    obtain ⟨hA, _, hC⟩ := saddestFold l ("n/a", 100)
    have hr2 : (l.foldl saddestStep ("n/a", 100)).2 < 100 :=
      lt_of_le_of_lt (hC p0 hp0) hp0lt
    rcases hA with hA | ⟨p, hp, hpe⟩
    · rw [hA] at hr2
      exact absurd hr2 (by norm_num)
    · refine ⟨p, hp, ?_, ?_⟩
      · unfold getSaddestCountry
        rw [if_neg hne, hpe]
      · intro q hq
        have hq2 := hC q hq
        rw [hpe] at hq2
        exact hq2

/-- Claim C10 witness at a concrete input. -/
theorem extreme_country_helpers_witness :
    (∃ p ∈ [("Brazil", (70 : ℚ)), ("France", 30)],
      getHappiestCountry [("Brazil", 70), ("France", 30)] = p.1.toLower ∧
      ∀ q ∈ [("Brazil", (70 : ℚ)), ("France", 30)], q.2 ≤ p.2) ∧
    (∃ p ∈ [("Brazil", (70 : ℚ)), ("France", 30)],
      getSaddestCountry [("Brazil", 70), ("France", 30)] = p.1.toLower ∧
      ∀ q ∈ [("Brazil", (70 : ℚ)), ("France", 30)], p.2 ≤ q.2) :=
  ⟨extreme_country_helpers.2.1 [("Brazil", 70), ("France", 30)]
      ⟨("Brazil", 70), by decide, by norm_num⟩,
    extreme_country_helpers.2.2.2 [("Brazil", 70), ("France", 30)]
      ⟨("France", 30), by decide, by norm_num⟩⟩

/-- Claim C1 witness at a concrete input. -/
theorem snapshot_breakdown_sums_to_total_witness :
    sumBreakdown (snapshot (ingestAll initState [post90, post50])).source_breakdown
      = (snapshot (ingestAll initState [post90, post50])).total_posts_analyzed :=
  snapshot_breakdown_sums_to_total [post90, post50]

/-- Claim C3 witness: the concrete Brazil scenario instance. -/
theorem country_minimum_sample_threshold_witness :
    ∃ e ∈ (snapshot (ingestAll initState (List.replicate 5 brazilPost))).country_timelines,
      e.name = "Brazil" ∧ e.total_posts = 5 ∧ e.timeline.length = 5 :=
  country_minimum_sample_threshold.2.2
